import Mathlib

/-!
# Umiri event bus: shallow embedding and verification

Shallow embedding of `UmiriEventBus` (src/index.ts) of the `umiri`
priority-tiered event dispatch engine, together with proofs about its
registration index, publish pipeline and middleware chain executor.

Modelling conventions:
* JavaScript `Map` is modelled as an insertion-ordered association list
  (`Map.set` updates in place or appends; `Map.delete` removes).
* JavaScript `Set<EventHandler>` is an insertion-ordered duplicate-free list;
  identity of a handler object is modelled by its `id` field (distinct
  instances carry distinct ids).
* A handler's asynchronous `handle` is modelled as a pure function returning
  its completion time (milliseconds) and its outcome: `.ok b` for a promise
  resolved with `b`, `.error ()` for a throw/rejection.
* Middlewares are pure; a middleware returning a falsy value is `none`.
* The cooperative concurrency of a tier collapses to a `List.map`: handlers
  have no side effects on the bus state in this embedding, so snapshot/stale
  bookkeeping is embedded faithfully but stale priorities cannot arise
  within a single `publish`.
-/

namespace Umiri

/-- Outcome of one invocation of a handler's `handle` function:
completion time in milliseconds, and either a resolved boolean or a
throw/rejection (`.error`). -/
structure HandleResult where
  time : Nat
  outcome : Except Unit Bool

/-- An event: `getType` either returns its list of type identifiers or
throws (`.error`). -/
structure UEvent where
  tag : Nat
  getType : Except Unit (List Int)

/-- The `EventHandler` record from src/index.ts; `id` models JavaScript object
identity (the key used by `Set` membership). -/
structure EventHandler where
  id : Nat
  targets : List Int
  priority : Int
  block : Bool
  timeout : Int
  handle : UEvent → HandleResult

/-! ## Association-list model of JavaScript `Map` -/

/-- Model of `Map.get`. -/
def alookup {β : Type} (k : Int) : List (Int × β) → Option β
  | [] => none
  | (k', v) :: rest => if k' = k then some v else alookup k rest

/-- Model of `Map.set`: replace in place if the key exists, else append. -/
def aset {β : Type} (k : Int) (v : β) : List (Int × β) → List (Int × β)
  | [] => [(k, v)]
  | (k', v') :: rest => if k' = k then (k, v) :: rest else (k', v') :: aset k v rest

/-- Model of `Map.delete`. -/
def adel {β : Type} (k : Int) : List (Int × β) → List (Int × β)
  | [] => []
  | (k', v') :: rest => if k' = k then rest else (k', v') :: adel k rest

/-- Model of `new Set(targets)`: deduplicate keeping first occurrences. -/
def dedupAux : List Int → List Int → List Int
  | [], _ => []
  | x :: xs, seen => if x ∈ seen then dedupAux xs seen else x :: dedupAux xs (x :: seen)

def dedupInts (l : List Int) : List Int := dedupAux l []

/-- Model of the handler-set `add`: no-op when a handler with the same identity is
already present, else append. -/
def bucketAdd (b : List EventHandler) (h : EventHandler) : List EventHandler :=
  if b.any (fun h' => h'.id = h.id) then b else b ++ [h]

abbrev Bucket := List EventHandler
abbrev TypeMap := List (Int × Bucket)
abbrev HandlerMap := List (Int × TypeMap)

/-! ## Sorted-descending priority list (`priorities.push(p); priorities.sort((a,b) => b-a)`) -/

def insertDesc (p : Int) : List Int → List Int
  | [] => [p]
  | q :: rest => if q ≤ p then p :: q :: rest else q :: insertDesc p rest

/-- Sort descending; on the actual inputs (a sorted duplicate-free list with
one fresh element pushed) this agrees with JavaScript's comparator sort. -/
def sortDesc (l : List Int) : List Int := l.foldr insertDesc []

/-! ## Middleware chain executor: `reduce` with cancellation short-circuit -/

/-- One reduction step of a before* middleware chain:
`(acc, mw) => { if (acc.cancel) return acc; const res = mw(acc.payload); return res ? res : acc; }`. -/
def chainStep {α : Type} (acc : α × Bool) (mw : α → Option (α × Bool)) : α × Bool :=
  if acc.2 then acc
  else
    match mw acc.1 with
    | none => acc
    | some r => r

/-- The fold over a before* middleware list, seeded with
`{ payload, cancel: false }`. -/
def chainFold {α : Type} (mws : List (α → Option (α × Bool))) (seed : α) : α × Bool :=
  mws.foldl chainStep (seed, false)

/-! ## Bus state -/

/-- After* middlewares are void observers with no effect on the engine state,
so only the before* middleware lists are part of the embedded state. -/
structure BusState where
  handlerMap : HandlerMap
  priorities : List Int
  beforeRegisterMWs : List (EventHandler → Option (EventHandler × Bool))
  beforeUnregisterMWs : List (EventHandler → Option (EventHandler × Bool))
  beforePublishMWs : List (UEvent → Option (UEvent × Bool))
  beforePriorityCheckMWs : List (Int → List EventHandler → Option (List EventHandler × Bool))
  beforeBlockCheckMWs : List (EventHandler → Option (EventHandler × Bool))

def emptyBus : BusState :=
  { handlerMap := []
    priorities := []
    beforeRegisterMWs := []
    beforeUnregisterMWs := []
    beforePublishMWs := []
    beforePriorityCheckMWs := []
    beforeBlockCheckMWs := [] }

/-! ## register / unregister -/

/-- Insertion step of `register` for one target type: fetch-or-create the
bucket for `t` and add the *original* handler to it. -/
def regStep (handler : EventHandler) (tm : TypeMap) (t : Int) : TypeMap :=
  aset t (bucketAdd ((alookup t tm).getD []) handler) tm

/-- Embedding of `UmiriEventBus.register`. Note the source adds the *original* `handler`
to each bucket (`bucket.add(handler)`), while priority and targets are taken
from the possibly middleware-substituted `currentHandler`. The returned
unregister closure is modelled separately by `unregister`. -/
def register (bus : BusState) (handler : EventHandler) : BusState :=
  let beforeResult := chainFold bus.beforeRegisterMWs handler
  if beforeResult.2 then bus
  else
    let current := beforeResult.1
    let p := current.priority
    match alookup p bus.handlerMap with
    | some typeMap =>
        let typeMap' := (dedupInts current.targets).foldl (regStep handler) typeMap
        { bus with handlerMap := aset p typeMap' bus.handlerMap }
    | none =>
        let typeMap' := (dedupInts current.targets).foldl (regStep handler) ([] : TypeMap)
        { bus with
            handlerMap := aset p typeMap' bus.handlerMap
            priorities := sortDesc (bus.priorities ++ [p]) }

/-- Removal step of `unregister` for one target type: `bucket.delete(handler)`
(by identity) and deletion of the type entry when the bucket empties. -/
def unregStep (handler : EventHandler) (tm : TypeMap) (t : Int) : TypeMap :=
  match alookup t tm with
  | none => tm
  | some bucket =>
      let bucket' := bucket.filter (fun h' => h'.id ≠ handler.id)
      if bucket'.isEmpty then adel t tm else aset t bucket' tm

/-- Embedding of `UmiriEventBus.unregister`. As in `register`, the *original* handler is
the one deleted from buckets, while priority and targets come from the
possibly substituted handler. -/
def unregister (bus : BusState) (handler : EventHandler) : BusState :=
  let beforeResult := chainFold bus.beforeUnregisterMWs handler
  if beforeResult.2 then bus
  else
    let current := beforeResult.1
    let p := current.priority
    match alookup p bus.handlerMap with
    | none => bus
    | some typeMap =>
        let typeMap' := (dedupInts current.targets).foldl (unregStep handler) typeMap
        if typeMap'.isEmpty then
          { bus with
              handlerMap := adel p bus.handlerMap
              priorities := bus.priorities.filter (fun q => q ≠ p) }
        else { bus with handlerMap := aset p typeMap' bus.handlerMap }

/-! ## publish -/

/-- The handler's own result, normalized:
`Promise.resolve(h.handle(event)).then(v => v === true).catch(() => false)`. -/
def normalizeRun (h : EventHandler) (e : UEvent) : Bool :=
  match (h.handle e).outcome with
  | .ok v => v
  | .error _ => false

/-- The result observed by the publish pipeline for one handler: the
normalized run, raced against a `setTimeout` timer when `timeout > 0`
(the timer resolving `false` wins when the handler has not completed
strictly before the timeout boundary). -/
def runHandler (h : EventHandler) (e : UEvent) : Bool :=
  if h.timeout ≤ 0 then normalizeRun h e
  else if (h.handle e).time < h.timeout then normalizeRun h e
  else false

/-- Override the completion time a handler's `handle` reports. -/
def setTime (h : EventHandler) (t : Nat) : EventHandler :=
  { h with handle := fun e => { h.handle e with time := t } }

/-- One step of the per-tier bag collection: add the bucket of one event
type to the bag (deduplicated by handler identity, insertion order). -/
def bagStep (typeMap : TypeMap) (bag : List EventHandler) (t : Int) : List EventHandler :=
  match alookup t typeMap with
  | none => bag
  | some bucket => bucket.foldl bucketAdd bag

/-- Collect the per-tier bag: union of the buckets of the event's types,
deduplicated by handler identity in insertion order. -/
def collectBag (typeMap : TypeMap) (eventTypes : List Int) : List EventHandler :=
  eventTypes.foldl (bagStep typeMap) []

/-- The block-check scan over the tier's `(handler, result)` pairs, in list
order: a `true` result is recorded as executed; if that handler's `block` is
set and the beforeBlockCheck chain does not cancel, the scan stops with the
blocked flag set. Returns (executed handlers of this tier, blocked). -/
def blockScan (mws : List (EventHandler → Option (EventHandler × Bool)))
    (pairs : List (EventHandler × Bool)) : List EventHandler × Bool :=
  match pairs with
  | [] => ([], false)
  | (h, r) :: rest =>
      if r then
        if h.block then
          if (chainFold mws h).2 then
            let o := blockScan mws rest
            (h :: o.1, o.2)
          else ([h], true)
        else
          let o := blockScan mws rest
          (h :: o.1, o.2)
      else blockScan mws rest

/-- The tier's effective handler list: the bag, run through the
beforePriorityCheck chain; `none` when the chain cancelled the tier or the
resulting list is empty (both `continue` in the source). -/
def tierHandlers (bus : BusState) (p : Int) (typeMap : TypeMap)
    (eventTypes : List Int) : Option (List EventHandler) :=
  let bag := collectBag typeMap eventTypes
  let checkResult := chainFold (bus.beforePriorityCheckMWs.map (fun mw hs => mw p hs)) bag
  if checkResult.2 then none
  else if checkResult.1.isEmpty then none
  else some checkResult.1

/-- Result of the priority loop: executed handlers (in recording order), the
trace of invocations per executed tier (priority, then each invoked handler's
identity with its observed result), and the stale priorities found missing
from the live index. -/
structure LoopOut where
  executed : List EventHandler
  trace : List (Int × List (Nat × Bool))
  stale : List Int

/-- The `for (let priority of prioritiesSnapshot)` loop of `publish`. -/
def publishLoop (bus : BusState) (event : UEvent) (eventTypes : List Int) :
    List Int → LoopOut
  | [] => ⟨[], [], []⟩
  | p :: rest =>
      match alookup p bus.handlerMap with
      | none =>
          let o := publishLoop bus event eventTypes rest
          ⟨o.executed, o.trace, p :: o.stale⟩
      | some typeMap =>
          match tierHandlers bus p typeMap eventTypes with
          | none => publishLoop bus event eventTypes rest
          | some vh =>
              let pairs := vh.map (fun h => (h, runHandler h event))
              let scan := blockScan bus.beforeBlockCheckMWs pairs
              let entry := (p, pairs.map (fun q => (q.1.id, q.2)))
              if scan.2 then ⟨scan.1, [entry], []⟩
              else
                let o := publishLoop bus event eventTypes rest
                ⟨scan.1 ++ o.executed, entry :: o.trace, o.stale⟩

/-- Observable outcome of one `publish` call. `raised = true` models an
exception propagating to the caller (only `event.getType()` can do this).
`afterArgs` is `some (event, executedHandlers)` exactly when the afterPublish
middlewares were invoked, with the arguments they received. -/
structure PublishResult where
  raised : Bool
  state : BusState
  afterArgs : Option (UEvent × List EventHandler)
  trace : List (Int × List (Nat × Bool))

/-- Embedding of `UmiriEventBus.publish`. -/
def publish (bus : BusState) (event : UEvent) : PublishResult :=
  let beforeResult := chainFold bus.beforePublishMWs event
  if beforeResult.2 then ⟨false, bus, none, []⟩
  else
    let event' := beforeResult.1
    match event'.getType with
    | .error _ => ⟨true, bus, none, []⟩
    | .ok eventTypes =>
        let o := publishLoop bus event' eventTypes bus.priorities
        let priorities' :=
          if o.stale.isEmpty then bus.priorities
          else bus.priorities.filter (fun p => ¬ p ∈ o.stale)
        ⟨false, { bus with priorities := priorities' }, some (event', o.executed), o.trace⟩

/-- Keys of an association list. -/
def keys {β : Type} (m : List (Int × β)) : List Int := m.map Prod.fst

theorem keys_nil {β : Type} : keys ([] : List (Int × β)) = [] := rfl

theorem keys_cons {β : Type} (k : Int) (v : β) (m : List (Int × β)) :
    keys ((k, v) :: m) = k :: keys m := rfl

/-! ## Lemmas about the association-list operations -/

theorem alookup_aset {β : Type} (k k' : Int) (v : β) (m : List (Int × β)) :
    alookup k' (aset k v m) = if k = k' then some v else alookup k' m := by
  induction m with
  | nil => by_cases h : k = k' <;> simp [aset, alookup, h]
  | cons q rest ih =>
    obtain ⟨k₀, v₀⟩ := q
    by_cases h₀ : k₀ = k
    · subst h₀
      by_cases h : k₀ = k' <;> simp [aset, alookup, h]
    · by_cases h : k₀ = k'
      · subst h
        have h₁ : ¬ k = k₀ := fun he => h₀ he.symm
        simp [aset, alookup, h₀, h₁]
      · simp [aset, alookup, h₀, h, ih]

theorem alookup_aset_self {β : Type} (k : Int) (v : β) (m : List (Int × β)) :
    alookup k (aset k v m) = some v := by
  simp [alookup_aset]

theorem alookup_aset_ne {β : Type} {k k' : Int} (v : β) (m : List (Int × β))
    (h : k ≠ k') : alookup k' (aset k v m) = alookup k' m := by
  simp [alookup_aset, h]

theorem aset_of_alookup_eq {β : Type} {k : Int} {v : β} {m : List (Int × β)}
    (h : alookup k m = some v) : aset k v m = m := by
  induction m with
  | nil => simp [alookup] at h
  | cons q rest ih =>
    obtain ⟨k₀, v₀⟩ := q
    by_cases h₀ : k₀ = k
    · subst h₀
      simp [alookup] at h
      simp [aset, h]
    · simp [alookup, h₀] at h
      simp [aset, h₀, ih h]

theorem alookup_adel_ne {β : Type} {k k' : Int} (m : List (Int × β))
    (h : k ≠ k') : alookup k' (adel k m) = alookup k' m := by
  induction m with
  | nil => simp [adel]
  | cons q rest ih =>
    obtain ⟨k₀, v₀⟩ := q
    by_cases h₀ : k₀ = k
    · subst h₀
      have h₁ : ¬ k₀ = k' := h
      simp [adel, alookup, h₁]
    · simp [adel, alookup, h₀, ih]

theorem alookup_isSome_iff_mem_keys {β : Type} (k : Int) (m : List (Int × β)) :
    (alookup k m).isSome = true ↔ k ∈ keys m := by
  induction m with
  | nil => simp [alookup, keys_nil]
  | cons q rest ih =>
    obtain ⟨k₀, v₀⟩ := q
    rw [keys_cons]
    by_cases h₀ : k₀ = k
    · subst h₀
      simp [alookup]
    · have h₁ : ¬ k = k₀ := fun he => h₀ he.symm
      rw [List.mem_cons]
      simp only [alookup, if_neg h₀]
      rw [ih]
      simp [h₁]

theorem alookup_eq_none_of_not_mem_keys {β : Type} {k : Int} {m : List (Int × β)}
    (h : k ∉ keys m) : alookup k m = none := by
  cases hl : alookup k m with
  | none => rfl
  | some v =>
    exact absurd ((alookup_isSome_iff_mem_keys k m).1 (by simp [hl])) h

theorem alookup_of_mem_keys {β : Type} {k : Int} {m : List (Int × β)}
    (h : k ∈ keys m) : ∃ v, alookup k m = some v := by
  have := (alookup_isSome_iff_mem_keys k m).2 h
  cases hl : alookup k m with
  | none => rw [hl] at this; simp at this
  | some v => exact ⟨v, rfl⟩

theorem keys_aset_mem {β : Type} {k : Int} (v : β) {m : List (Int × β)}
    (h : k ∈ keys m) : keys (aset k v m) = keys m := by
  induction m with
  | nil => simp [keys_nil] at h
  | cons q rest ih =>
    obtain ⟨k₀, v₀⟩ := q
    rw [keys_cons] at h
    by_cases h₀ : k₀ = k
    · subst h₀
      simp [aset, keys_cons]
    · have hmem : k ∈ keys rest := by
        rcases List.mem_cons.1 h with he | hm
        · exact absurd he.symm h₀
        · exact hm
      simp only [aset, if_neg h₀, keys_cons, ih hmem]

theorem keys_aset_not_mem {β : Type} {k : Int} (v : β) {m : List (Int × β)}
    (h : k ∉ keys m) : keys (aset k v m) = keys m ++ [k] := by
  induction m with
  | nil => simp [aset, keys_nil, keys_cons]
  | cons q rest ih =>
    obtain ⟨k₀, v₀⟩ := q
    rw [keys_cons] at h
    have hne : k₀ ≠ k := fun he => h (by rw [he]; exact List.mem_cons_self k (keys rest))
    have hm : k ∉ keys rest := fun hk => h (List.mem_cons_of_mem k₀ hk)
    simp only [aset, if_neg hne, keys_cons, ih hm, List.cons_append]

theorem adel_sublist {β : Type} (k : Int) (m : List (Int × β)) :
    (adel k m).Sublist m := by
  induction m with
  | nil => simp [adel]
  | cons q rest ih =>
    obtain ⟨k₀, v₀⟩ := q
    by_cases h₀ : k₀ = k
    · rw [adel, if_pos h₀]
      exact List.sublist_cons_self (k₀, v₀) rest
    · rw [adel, if_neg h₀]
      exact ih.cons₂ (k₀, v₀)

theorem keys_adel_sublist {β : Type} (k : Int) (m : List (Int × β)) :
    (keys (adel k m)).Sublist (keys m) :=
  (adel_sublist k m).map Prod.fst

theorem alookup_adel_self {β : Type} {k : Int} {m : List (Int × β)}
    (hnd : (keys m).Nodup) : alookup k (adel k m) = none := by
  induction m with
  | nil => simp [adel, alookup]
  | cons q rest ih =>
    obtain ⟨k₀, v₀⟩ := q
    rw [keys_cons, List.nodup_cons] at hnd
    by_cases h₀ : k₀ = k
    · subst h₀
      rw [adel, if_pos rfl]
      exact alookup_eq_none_of_not_mem_keys hnd.1
    · rw [adel, if_neg h₀]
      simp only [alookup, if_neg h₀]
      exact ih hnd.2

theorem mem_keys_adel {β : Type} {k k' : Int} {m : List (Int × β)}
    (hnd : (keys m).Nodup) : k' ∈ keys (adel k m) ↔ k' ∈ keys m ∧ k' ≠ k := by
  constructor
  · intro h
    refine ⟨(keys_adel_sublist k m).mem h, ?_⟩
    intro he
    rw [he] at h
    have hx := (alookup_isSome_iff_mem_keys k (adel k m)).2 h
    simp [alookup_adel_self hnd] at hx
  · rintro ⟨hm, hne⟩
    have hs : (alookup k' m).isSome = true := (alookup_isSome_iff_mem_keys _ _).2 hm
    rw [← alookup_adel_ne (k := k) m (fun he => hne he.symm)] at hs
    exact (alookup_isSome_iff_mem_keys _ _).1 hs

theorem mem_aset {β : Type} {q : Int × β} {k : Int} {v : β} {m : List (Int × β)}
    (h : q ∈ aset k v m) : q = (k, v) ∨ q ∈ m := by
  induction m with
  | nil => simpa [aset] using h
  | cons q₀ rest ih =>
    obtain ⟨k₀, v₀⟩ := q₀
    by_cases h₀ : k₀ = k
    · rw [aset, if_pos h₀] at h
      rcases List.mem_cons.1 h with he | hm
      · exact .inl he
      · exact .inr (List.mem_cons_of_mem _ hm)
    · rw [aset, if_neg h₀] at h
      rcases List.mem_cons.1 h with he | hm
      · exact .inr (he ▸ List.mem_cons_self _ _)
      · rcases ih hm with he | hm'
        · exact .inl he
        · exact .inr (List.mem_cons_of_mem _ hm')

theorem mem_adel {β : Type} {q : Int × β} {k : Int} {m : List (Int × β)}
    (h : q ∈ adel k m) : q ∈ m := (adel_sublist k m).mem h

theorem aset_ne_nil {β : Type} (k : Int) (v : β) (m : List (Int × β)) :
    aset k v m ≠ [] := by
  cases m with
  | nil => simp [aset]
  | cons q rest =>
    obtain ⟨k₀, v₀⟩ := q
    by_cases h₀ : k₀ = k <;> simp [aset, h₀]

theorem keys_aset_nodup {β : Type} {k : Int} (v : β) {m : List (Int × β)}
    (h : (keys m).Nodup) : (keys (aset k v m)).Nodup := by
  by_cases hk : k ∈ keys m
  · rwa [keys_aset_mem v hk]
  · rw [keys_aset_not_mem v hk]
    simpa [List.nodup_append] using ⟨h, fun hm => hk hm⟩

theorem keys_adel_nodup {β : Type} {k : Int} {m : List (Int × β)}
    (h : (keys m).Nodup) : (keys (adel k m)).Nodup :=
  (keys_adel_sublist k m).nodup h

/-! ## Lemmas about deduplication and buckets -/

theorem mem_dedupAux {x : Int} : ∀ {l seen : List Int},
    x ∈ dedupAux l seen ↔ x ∈ l ∧ x ∉ seen := by
  intro l
  induction l with
  | nil => simp [dedupAux]
  | cons y ys ih =>
    intro seen
    by_cases hy : y ∈ seen
    · rw [dedupAux, if_pos hy, ih]
      constructor
      · rintro ⟨h1, h2⟩
        exact ⟨List.mem_cons_of_mem y h1, h2⟩
      · rintro ⟨h1, h2⟩
        rcases List.mem_cons.1 h1 with rfl | h1
        · exact absurd hy h2
        · exact ⟨h1, h2⟩
    · rw [dedupAux, if_neg hy]
      simp only [List.mem_cons, ih]
      constructor
      · rintro (rfl | ⟨h1, h2⟩)
        · exact ⟨Or.inl rfl, hy⟩
        · exact ⟨Or.inr h1, fun hs => h2 (Or.inr hs)⟩
      · rintro ⟨rfl | h1, h2⟩
        · exact Or.inl rfl
        · by_cases hxy : x = y
          · exact Or.inl hxy
          · exact Or.inr ⟨h1, fun hs => hs.elim hxy h2⟩

theorem mem_dedupInts {x : Int} {l : List Int} : x ∈ dedupInts l ↔ x ∈ l := by
  simp [dedupInts, mem_dedupAux]

theorem dedupInts_ne_nil {l : List Int} (h : l ≠ []) : dedupInts l ≠ [] := by
  cases l with
  | nil => exact absurd rfl h
  | cons x xs => simp [dedupInts, dedupAux]

theorem bucketAdd_ne_nil (b : Bucket) (h : EventHandler) : bucketAdd b h ≠ [] := by
  unfold bucketAdd
  split
  · intro he
    subst he
    simp_all
  · simp

theorem bucketAdd_any_id (b : Bucket) (h : EventHandler) :
    (bucketAdd b h).any (fun h' => h'.id = h.id) = true := by
  unfold bucketAdd
  split
  · assumption
  · simp

theorem bucketAdd_of_any {b : Bucket} {h : EventHandler}
    (ha : b.any (fun h' => h'.id = h.id) = true) : bucketAdd b h = b := by
  simp [bucketAdd, ha]

/-! ## Lemmas about the sorted priority list -/

theorem mem_insertDesc {x p : Int} : ∀ {l : List Int},
    x ∈ insertDesc p l ↔ x = p ∨ x ∈ l := by
  intro l
  induction l with
  | nil => simp [insertDesc]
  | cons q rest ih =>
    by_cases hq : q ≤ p
    · simp [insertDesc, hq]
    · simp [insertDesc, hq, ih]
      tauto

theorem insertDesc_perm (p : Int) (l : List Int) :
    (insertDesc p l).Perm (p :: l) := by
  induction l with
  | nil => simp [insertDesc]
  | cons q rest ih =>
    by_cases hq : q ≤ p
    · simp [insertDesc, hq]
    · rw [insertDesc, if_neg hq]
      exact (ih.cons q).trans (List.Perm.swap p q rest)

theorem sortDesc_perm (l : List Int) : (sortDesc l).Perm l := by
  induction l with
  | nil => simp [sortDesc]
  | cons x xs ih =>
    have hrw : sortDesc (x :: xs) = insertDesc x (sortDesc xs) := rfl
    rw [hrw]
    exact (insertDesc_perm x (sortDesc xs)).trans (ih.cons x)

theorem insertDesc_sorted {p : Int} {l : List Int}
    (h : List.Pairwise (· ≥ ·) l) : List.Pairwise (· ≥ ·) (insertDesc p l) := by
  induction l with
  | nil => simp [insertDesc]
  | cons q rest ih =>
    rcases List.pairwise_cons.1 h with ⟨hq, hrest⟩
    by_cases hqp : q ≤ p
    · rw [insertDesc, if_pos hqp]
      refine List.pairwise_cons.2 ⟨?_, h⟩
      intro b hb
      rcases List.mem_cons.1 hb with rfl | hb
      · exact hqp
      · exact le_trans (hq b hb) hqp
    · rw [insertDesc, if_neg hqp]
      refine List.pairwise_cons.2 ⟨?_, ih hrest⟩
      intro b hb
      rcases mem_insertDesc.1 hb with rfl | hb
      · exact le_of_not_le hqp
      · exact hq b hb

theorem sortDesc_sorted (l : List Int) : List.Pairwise (· ≥ ·) (sortDesc l) := by
  induction l with
  | nil => simp [sortDesc]
  | cons x xs ih => exact insertDesc_sorted ih

theorem sortDesc_pairwise_gt {l : List Int} (h : l.Nodup) :
    List.Pairwise (· > ·) (sortDesc l) := by
  have hnd : (sortDesc l).Nodup := (sortDesc_perm l).nodup_iff.2 h
  have hs := sortDesc_sorted l
  have hand := hs.and hnd
  exact hand.imp (fun hab => lt_of_le_of_ne hab.1 (Ne.symm hab.2))

/-! ## Lemmas about the middleware chain executor -/

theorem chainStep_cancelled {α : Type} {acc : α × Bool}
    (h : acc.2 = true) (mw : α → Option (α × Bool)) : chainStep acc mw = acc := by
  simp [chainStep, h]

theorem foldl_chainStep_cancelled {α : Type} {acc : α × Bool} (h : acc.2 = true) :
    ∀ mws : List (α → Option (α × Bool)), mws.foldl chainStep acc = acc := by
  intro mws
  induction mws with
  | nil => rfl
  | cons mw rest ih => rw [List.foldl_cons, chainStep_cancelled h mw, ih]

theorem chainFold_append {α : Type} (mws₁ mws₂ : List (α → Option (α × Bool)))
    (seed : α) :
    chainFold (mws₁ ++ mws₂) seed =
      if (chainFold mws₁ seed).2 then chainFold mws₁ seed
      else chainFold mws₂ (chainFold mws₁ seed).1 := by
  unfold chainFold
  rw [List.foldl_append]
  by_cases h : (List.foldl chainStep (seed, false) mws₁).2 = true
  · rw [if_pos h]
    exact foldl_chainStep_cancelled h mws₂
  · rw [if_neg h]
    have he : List.foldl chainStep (seed, false) mws₁
        = ((List.foldl chainStep (seed, false) mws₁).1, false) := by
      rw [Prod.ext_iff]
      simp [Bool.eq_false_iff.2 h]
    rw [he]

theorem chainFold_cons_none {α : Type} {mw : α → Option (α × Bool)}
    (hmw : ∀ a, mw a = none) (mws : List (α → Option (α × Bool))) (seed : α) :
    chainFold (mw :: mws) seed = chainFold mws seed := by
  unfold chainFold
  rw [List.foldl_cons]
  have : chainStep (seed, false) mw = (seed, false) := by
    simp [chainStep, hmw seed]
  rw [this]

theorem chainFold_insert_none {α : Type} (mws₁ mws₂ : List (α → Option (α × Bool)))
    {mw : α → Option (α × Bool)} (hmw : ∀ a, mw a = none) (seed : α) :
    chainFold (mws₁ ++ mw :: mws₂) seed = chainFold (mws₁ ++ mws₂) seed := by
  rw [chainFold_append, chainFold_append mws₁ mws₂]
  by_cases h : (chainFold mws₁ seed).2 = true
  · rw [if_pos h, if_pos h]
  · rw [if_neg h, if_neg h, chainFold_cons_none hmw]

theorem chainFold_nil {α : Type} (seed : α) :
    chainFold ([] : List (α → Option (α × Bool))) seed = (seed, false) := rfl

/-! ## Claim theorems: middleware chain executor (C9) -/

/-- C9: every before* middleware chain (they all run through `chainFold`,
see `register`, `unregister`, `publish`, `tierHandlers` and `blockScan`) is a
left-fold in registration order such that (1) once the accumulator is
cancelled the remaining interceptors leave the accumulated result exactly
as-is, whatever they are; (2) the chain composes by appending: the second
part of the chain is seeded with the first part's accumulated payload, and is
skipped entirely when the first part cancelled; (3) an interceptor returning
a falsy value (`none`) leaves the accumulator unchanged wherever it is
inserted in the chain. -/
theorem chain_executor_fold_spec :
    (∀ (α : Type) (acc : α × Bool), acc.2 = true →
      ∀ mws : List (α → Option (α × Bool)), mws.foldl chainStep acc = acc)
    ∧ (∀ (α : Type) (mws₁ mws₂ : List (α → Option (α × Bool))) (seed : α),
      chainFold (mws₁ ++ mws₂) seed =
        if (chainFold mws₁ seed).2 then chainFold mws₁ seed
        else chainFold mws₂ (chainFold mws₁ seed).1)
    ∧ (∀ (α : Type) (mws₁ mws₂ : List (α → Option (α × Bool)))
        (mw : α → Option (α × Bool)), (∀ a, mw a = none) → ∀ seed : α,
      chainFold (mws₁ ++ mw :: mws₂) seed = chainFold (mws₁ ++ mws₂) seed) :=
  ⟨fun _ _ h mws => foldl_chainStep_cancelled h mws,
   fun _ mws₁ mws₂ seed => chainFold_append mws₁ mws₂ seed,
   fun _ mws₁ mws₂ _ hmw seed => chainFold_insert_none mws₁ mws₂ hmw seed⟩

/-- Witness for C9 at concrete interceptors over `Nat` payloads. -/
theorem chain_executor_fold_spec_witness :
    ([fun n : Nat => some (n + 1, false)].foldl chainStep (7, true) = (7, true))
    ∧ (chainFold ([fun n : Nat => some (n + 1, false)] ++ [fun n : Nat => some (n * 2, false)]) 3
        = if (chainFold [fun n : Nat => some (n + 1, false)] 3).2
          then chainFold [fun n : Nat => some (n + 1, false)] 3
          else chainFold [fun n : Nat => some (n * 2, false)]
            (chainFold [fun n : Nat => some (n + 1, false)] 3).1)
    ∧ (chainFold ([fun n : Nat => some (n + 1, false)] ++ (fun _ : Nat => none) :: []) 5
        = chainFold ([fun n : Nat => some (n + 1, false)] ++ []) 5) :=
  ⟨chain_executor_fold_spec.1 Nat (7, true) rfl _,
   chain_executor_fold_spec.2.1 Nat _ _ 3,
   chain_executor_fold_spec.2.2 Nat _ [] (fun _ => none) (fun _ => rfl) 5⟩

/-! ## Claim theorems: publish cancellation (C5) and getType fault (C10) -/

/-- C5: when the beforePublish chain cancels, `publish` returns immediately:
no exception, the state untouched, the afterPublish middlewares not invoked
(`afterArgs = none`), and no tier visited (empty trace). -/
theorem publish_cancelled (bus : BusState) (e : UEvent)
    (h : (chainFold bus.beforePublishMWs e).2 = true) :
    publish bus e = ⟨false, bus, none, []⟩ := by
  simp [publish, h]

/-- Witness for C5: a bus whose single beforePublish interceptor cancels. -/
theorem publish_cancelled_witness :
    (chainFold ({ emptyBus with
        beforePublishMWs := [fun e => some (e, true)] } : BusState).beforePublishMWs
        ⟨0, .ok []⟩).2 = true
    ∧ publish { emptyBus with beforePublishMWs := [fun e => some (e, true)] } ⟨0, .ok []⟩
        = ⟨false, { emptyBus with beforePublishMWs := [fun e => some (e, true)] }, none, []⟩ :=
  ⟨rfl, publish_cancelled _ _ rfl⟩

/-- C10: when the beforePublish chain does not cancel and the (possibly
substituted) event's `getType` throws, the exception propagates to the
caller (`raised = true`), no tier is visited, the afterPublish middlewares
are not invoked, and the state is untouched: the `getType` query happens
before the try/finally that guarantees afterPublish. -/
theorem publish_getType_raises (bus : BusState) (e : UEvent)
    (hc : (chainFold bus.beforePublishMWs e).2 = false)
    (he : (chainFold bus.beforePublishMWs e).1.getType = .error ()) :
    publish bus e = ⟨true, bus, none, []⟩ := by
  simp [publish, hc, he]

/-- Witness for C10: an event whose `getType` throws, published on the empty
bus. -/
theorem publish_getType_raises_witness :
    (chainFold emptyBus.beforePublishMWs ⟨3, .error ()⟩).2 = false
    ∧ (chainFold emptyBus.beforePublishMWs ⟨3, .error ()⟩).1.getType = .error ()
    ∧ publish emptyBus ⟨3, .error ()⟩ = ⟨true, emptyBus, none, []⟩ :=
  ⟨rfl, rfl, publish_getType_raises emptyBus ⟨3, .error ()⟩ rfl rfl⟩

/-! ## Claim theorems: timeout disabled (C8) -/

/-- C8: for a handler with `timeout ≤ 0` the publish pipeline never races
its run against a timer: the observed result equals the handler's own
normalized completion result whatever the completion time is (a slow handler
still completes and is awaited), and in particular a `true` own result is
observed as `true`. -/
theorem timeout_disabled_no_race (h : EventHandler) (e : UEvent)
    (ht : h.timeout ≤ 0) :
    runHandler h e = normalizeRun h e
    ∧ (∀ t : Nat, runHandler (setTime h t) e = normalizeRun h e)
    ∧ (normalizeRun h e = true → runHandler h e = true) := by
  refine ⟨by simp [runHandler, ht], ?_, ?_⟩
  · intro t
    have ht' : (setTime h t).timeout ≤ 0 := ht
    have hn : normalizeRun (setTime h t) e = normalizeRun h e := by
      simp [normalizeRun, setTime]
    rw [runHandler, if_pos ht', hn]
  · intro htrue
    rw [runHandler, if_pos ht, htrue]

/-- Witness for C8: a handler with `timeout = 0` whose run takes 1000000 ms
and resolves `true`; the observed result is `true`. -/
theorem timeout_disabled_no_race_witness :
    ((⟨1, [10], 0, false, 0, fun _ => ⟨1000000, .ok true⟩⟩ : EventHandler).timeout ≤ 0)
    ∧ (runHandler ⟨1, [10], 0, false, 0, fun _ => ⟨1000000, .ok true⟩⟩ ⟨0, .ok [10]⟩
        = normalizeRun ⟨1, [10], 0, false, 0, fun _ => ⟨1000000, .ok true⟩⟩ ⟨0, .ok [10]⟩
      ∧ (∀ t : Nat, runHandler (setTime ⟨1, [10], 0, false, 0, fun _ => ⟨1000000, .ok true⟩⟩ t) ⟨0, .ok [10]⟩
          = normalizeRun ⟨1, [10], 0, false, 0, fun _ => ⟨1000000, .ok true⟩⟩ ⟨0, .ok [10]⟩)
      ∧ (normalizeRun ⟨1, [10], 0, false, 0, fun _ => ⟨1000000, .ok true⟩⟩ ⟨0, .ok [10]⟩ = true →
          runHandler ⟨1, [10], 0, false, 0, fun _ => ⟨1000000, .ok true⟩⟩ ⟨0, .ok [10]⟩ = true)) :=
  ⟨by decide, timeout_disabled_no_race _ _ (by decide)⟩

/-! ## Claim theorems: handler fault isolation (C4) -/

/-- C4: a handler whose `handle` throws or rejects is normalized to a `false`
result; an exception from `publish` can only come from `getType` after an
uncancelled beforePublish chain (never from a handler); and a failed handler
is invisible to the block scan: it is not recorded and the scan of its
siblings proceeds exactly as without it, so the rest of the tier and the
lower tiers are unaffected. -/
theorem handler_fault_isolated :
    (∀ (h : EventHandler) (e : UEvent), (h.handle e).outcome = .error () →
      runHandler h e = false)
    ∧ (∀ (bus : BusState) (e : UEvent), (publish bus e).raised = true →
      (chainFold bus.beforePublishMWs e).2 = false
      ∧ (chainFold bus.beforePublishMWs e).1.getType = .error ())
    ∧ (∀ (mws : List (EventHandler → Option (EventHandler × Bool)))
        (h : EventHandler) (pairs : List (EventHandler × Bool)),
      blockScan mws ((h, false) :: pairs) = blockScan mws pairs) := by
  refine ⟨?_, ?_, ?_⟩
  · intro h e he
    have hn : normalizeRun h e = false := by simp [normalizeRun, he]
    unfold runHandler
    split
    · exact hn
    · split
      · exact hn
      · rfl
  · intro bus e hr
    by_cases hc : (chainFold bus.beforePublishMWs e).2 = true
    · rw [publish_cancelled bus e hc] at hr
      simp at hr
    · refine ⟨Bool.eq_false_iff.2 hc, ?_⟩
      cases hg : (chainFold bus.beforePublishMWs e).1.getType with
      | error u => cases u; rfl
      | ok types =>
        have hps : (publish bus e).raised = false := by
          simp [publish, Bool.eq_false_iff.2 hc, hg]
        rw [hps] at hr
        simp at hr
  · intro mws h pairs
    simp [blockScan]

/-- Witness for C4: a rejecting handler observed as `false`; a raising
publish (getType throws) pinned to its only cause; a failed handler dropped
from a concrete block scan. -/
theorem handler_fault_isolated_witness :
    ((⟨4, [10], 0, false, 0, fun _ => ⟨0, .error ()⟩⟩ : EventHandler).handle ⟨0, .ok [10]⟩).outcome = .error ()
    ∧ runHandler ⟨4, [10], 0, false, 0, fun _ => ⟨0, .error ()⟩⟩ ⟨0, .ok [10]⟩ = false
    ∧ ((publish emptyBus ⟨7, .error ()⟩).raised = true
      ∧ (chainFold emptyBus.beforePublishMWs ⟨7, .error ()⟩).2 = false
      ∧ (chainFold emptyBus.beforePublishMWs ⟨7, .error ()⟩).1.getType = .error ())
    ∧ blockScan [] [(⟨4, [10], 0, false, 0, fun _ => ⟨0, .error ()⟩⟩, false)] = blockScan [] [] :=
  ⟨rfl,
   handler_fault_isolated.1 ⟨4, [10], 0, false, 0, fun _ => ⟨0, .error ()⟩⟩ ⟨0, .ok [10]⟩ rfl,
   ⟨rfl, handler_fault_isolated.2.1 emptyBus ⟨7, .error ()⟩ rfl⟩,
   handler_fault_isolated.2.2 [] ⟨4, [10], 0, false, 0, fun _ => ⟨0, .error ()⟩⟩ []⟩

/-! ## Lemmas about the block scan and the priority loop -/

theorem blockScan_nil (mws : List (EventHandler → Option (EventHandler × Bool))) :
    blockScan mws [] = ([], false) := rfl

theorem blockScan_cons (mws : List (EventHandler → Option (EventHandler × Bool)))
    (h : EventHandler) (r : Bool) (rest : List (EventHandler × Bool)) :
    blockScan mws ((h, r) :: rest) =
      if r then
        if h.block then
          if (chainFold mws h).2 then
            (h :: (blockScan mws rest).1, (blockScan mws rest).2)
          else ([h], true)
        else (h :: (blockScan mws rest).1, (blockScan mws rest).2)
      else blockScan mws rest := rfl

theorem blockScan_blocked_of_mem {mws : List (EventHandler → Option (EventHandler × Bool))}
    {h : EventHandler} (hb : h.block = true) (hc : (chainFold mws h).2 = false) :
    ∀ {pairs : List (EventHandler × Bool)}, (h, true) ∈ pairs →
      (blockScan mws pairs).2 = true := by
  intro pairs
  induction pairs with
  | nil => intro hmem; simp at hmem
  | cons q rest ih =>
    intro hmem
    obtain ⟨h₀, r₀⟩ := q
    rcases List.mem_cons.1 hmem with he | hmem'
    · injection he with he1 he2
      subst he1
      subst he2
      simp [blockScan, hb, hc]
    · have hrec := ih hmem'
      by_cases hr : r₀ = true
      · by_cases hbl : h₀.block = true
        · by_cases hcc : (chainFold mws h₀).2 = true
          · simp [blockScan, hr, hbl, hcc, hrec]
          · simp [blockScan, hr, hbl, hcc]
        · simp [blockScan, hr, hbl, hrec]
      · simp [blockScan, hr, hrec]

theorem blockScan_not_blocked {mws : List (EventHandler → Option (EventHandler × Bool))} :
    ∀ {pairs : List (EventHandler × Bool)},
      (∀ q ∈ pairs, q.2 = true → q.1.block = true → (chainFold mws q.1).2 = true) →
      (blockScan mws pairs).2 = false := by
  intro pairs
  induction pairs with
  | nil => intro _; simp [blockScan]
  | cons q rest ih =>
    intro hall
    obtain ⟨h₀, r₀⟩ := q
    have hrec := ih (fun q hq => hall q (List.mem_cons_of_mem _ hq))
    by_cases hr : r₀ = true
    · by_cases hbl : h₀.block = true
      · have hcc := hall (h₀, r₀) (List.mem_cons_self _ _) hr hbl
        simp [blockScan, hr, hbl, hcc, hrec]
      · simp [blockScan, hr, hbl, hrec]
    · simp [blockScan, hr, hrec]

theorem publishLoop_nil (bus : BusState) (e : UEvent) (types : List Int) :
    publishLoop bus e types [] = ⟨[], [], []⟩ := rfl

theorem publishLoop_cons_stale {bus : BusState} {e : UEvent} {types : List Int}
    {p : Int} (rest : List Int) (hlk : alookup p bus.handlerMap = none) :
    publishLoop bus e types (p :: rest) =
      ⟨(publishLoop bus e types rest).executed, (publishLoop bus e types rest).trace,
        p :: (publishLoop bus e types rest).stale⟩ := by
  simp [publishLoop, hlk]

theorem publishLoop_cons_skip {bus : BusState} {e : UEvent} {types : List Int}
    {p : Int} {tm : TypeMap} (rest : List Int)
    (hlk : alookup p bus.handlerMap = some tm)
    (hth : tierHandlers bus p tm types = none) :
    publishLoop bus e types (p :: rest) = publishLoop bus e types rest := by
  simp [publishLoop, hlk, hth]

theorem publishLoop_cons_run {bus : BusState} {e : UEvent} {types : List Int}
    {p : Int} {tm : TypeMap} {vh : List EventHandler} (rest : List Int)
    (hlk : alookup p bus.handlerMap = some tm)
    (hth : tierHandlers bus p tm types = some vh) :
    publishLoop bus e types (p :: rest) =
      (if (blockScan bus.beforeBlockCheckMWs (vh.map (fun h => (h, runHandler h e)))).2 then
        ⟨(blockScan bus.beforeBlockCheckMWs (vh.map (fun h => (h, runHandler h e)))).1,
          [(p, vh.map (fun h => (h.id, runHandler h e)))], []⟩
      else
        ⟨(blockScan bus.beforeBlockCheckMWs (vh.map (fun h => (h, runHandler h e)))).1
            ++ (publishLoop bus e types rest).executed,
          (p, vh.map (fun h => (h.id, runHandler h e))) :: (publishLoop bus e types rest).trace,
          (publishLoop bus e types rest).stale⟩) := by
  simp only [publishLoop, hlk, hth, List.map_map]
  rfl

theorem publishLoop_trace_ge {bus : BusState} {e : UEvent} {types : List Int} {p : Int}
    {tm : TypeMap} {vh : List EventHandler}
    (hlk : alookup p bus.handlerMap = some tm)
    (hth : tierHandlers bus p tm types = some vh)
    (hblk : (blockScan bus.beforeBlockCheckMWs
        (vh.map (fun h => (h, runHandler h e)))).2 = true) :
    ∀ {l : List Int}, List.Pairwise (· > ·) l → p ∈ l →
      ∀ entry ∈ (publishLoop bus e types l).trace, p ≤ entry.1 := by
  intro l
  induction l with
  | nil => intro _ hp; simp at hp
  | cons a rest ih =>
    intro hpw hp entry hentry
    rcases List.pairwise_cons.1 hpw with ⟨ha, hrest⟩
    by_cases hap : a = p
    · subst hap
      rw [publishLoop_cons_run rest hlk hth, if_pos hblk] at hentry
      rcases List.mem_singleton.1 hentry with rfl
      exact le_refl a
    · have hp' : p ∈ rest := by
        rcases List.mem_cons.1 hp with he | hm
        · exact absurd he.symm hap
        · exact hm
      have hpa : p < a := ha p hp'
      cases hlk₀ : alookup a bus.handlerMap with
      | none =>
        rw [publishLoop_cons_stale rest hlk₀] at hentry
        exact ih hrest hp' entry hentry
      | some tm₀ =>
        cases hth₀ : tierHandlers bus a tm₀ types with
        | none =>
          rw [publishLoop_cons_skip rest hlk₀ hth₀] at hentry
          exact ih hrest hp' entry hentry
        | some vh₀ =>
          rw [publishLoop_cons_run rest hlk₀ hth₀] at hentry
          by_cases hsc : (blockScan bus.beforeBlockCheckMWs
              (vh₀.map (fun h => (h, runHandler h e)))).2 = true
          · rw [if_pos hsc] at hentry
            rcases List.mem_singleton.1 hentry with rfl
            exact le_of_lt hpa
          · rw [if_neg hsc] at hentry
            rcases List.mem_cons.1 hentry with he | hm
            · subst he
              exact le_of_lt hpa
            · exact ih hrest hp' entry hm

/-! ## Claim theorems: block short-circuit and beforeBlockCheck override (C2) -/

/-- C2: (a) when some handler of the tier at priority `p` succeeds with
`block = true` and the beforeBlockCheck chain does not cancel for it, every
tier recorded by that publish call has priority at least `p` — no strictly
lower-priority tier runs; (b) when every blocking success of the tier is
cancelled by the beforeBlockCheck chain, the priority loop proceeds past the
tier and the lower-priority part of the snapshot still runs, exactly as it
would on its own. -/
theorem block_short_circuit_spec :
    (∀ (bus : BusState) (event e' : UEvent) (types : List Int) (p : Int)
        (tm : TypeMap) (vh : List EventHandler) (h : EventHandler),
      List.Pairwise (· > ·) bus.priorities →
      chainFold bus.beforePublishMWs event = (e', false) →
      e'.getType = .ok types →
      p ∈ bus.priorities →
      alookup p bus.handlerMap = some tm →
      tierHandlers bus p tm types = some vh →
      h ∈ vh → runHandler h e' = true → h.block = true →
      (chainFold bus.beforeBlockCheckMWs h).2 = false →
      ∀ entry ∈ (publish bus event).trace, p ≤ entry.1)
    ∧ (∀ (bus : BusState) (e : UEvent) (types : List Int) (p : Int)
        (rest : List Int) (tm : TypeMap) (vh : List EventHandler),
      alookup p bus.handlerMap = some tm →
      tierHandlers bus p tm types = some vh →
      (∀ h ∈ vh, runHandler h e = true → h.block = true →
        (chainFold bus.beforeBlockCheckMWs h).2 = true) →
      (publishLoop bus e types (p :: rest)).trace
        = (p, vh.map (fun h => (h.id, runHandler h e)))
            :: (publishLoop bus e types rest).trace) := by
  constructor
  · intro bus event e' types p tm vh h hpw hcf hgt hp hlk hth hmem hrun hb hcc
    have htr : (publish bus event).trace = (publishLoop bus e' types bus.priorities).trace := by
      simp [publish, hcf, hgt]
    rw [htr]
    have hpair : (h, true) ∈ vh.map (fun h => (h, runHandler h e')) := by
      refine List.mem_map.2 ⟨h, hmem, ?_⟩
      rw [hrun]
    exact publishLoop_trace_ge hlk hth
      (blockScan_blocked_of_mem hb hcc hpair) hpw hp
  · intro bus e types p rest tm vh hlk hth hall
    have hsc : (blockScan bus.beforeBlockCheckMWs
        (vh.map (fun h => (h, runHandler h e)))).2 = false := by
      refine blockScan_not_blocked ?_
      intro q hq hq2 hq1
      rcases List.mem_map.1 hq with ⟨h, hh, rfl⟩
      exact hall h hh hq2 hq1
    rw [publishLoop_cons_run rest hlk hth, if_neg (by rw [hsc]; simp)]

/-- Concrete handlers, event and buses for the blocking witnesses. -/
def wBlocker : EventHandler := ⟨1, [10], 9, true, 0, fun _ => ⟨0, .ok true⟩⟩

def wLow : EventHandler := ⟨2, [10], 1, false, 0, fun _ => ⟨0, .ok true⟩⟩

def wEvent : UEvent := ⟨0, .ok [10]⟩

def wBus : BusState :=
  { emptyBus with
      handlerMap := [(9, [(10, [wBlocker])]), (1, [(10, [wLow])])]
      priorities := [9, 1] }

def wBusCancel : BusState :=
  { wBus with beforeBlockCheckMWs := [fun h => some (h, true)] }

/-- Witness for C2: on `wBus` the priority-9 blocker keeps every recorded
tier at priority 9 or above, and on `wBusCancel` (beforeBlockCheck cancels)
the loop continues into the lower tier. -/
theorem block_short_circuit_spec_witness :
    (∀ entry ∈ (publish wBus wEvent).trace, (9 : Int) ≤ entry.1)
    ∧ (publishLoop wBusCancel wEvent [10] [9, 1]).trace
        = (9, [(1, true)]) :: (publishLoop wBusCancel wEvent [10] [1]).trace :=
  ⟨block_short_circuit_spec.1 wBus wEvent wEvent [10] 9 [(10, [wBlocker])] [wBlocker]
      wBlocker (by decide) rfl rfl (by decide) rfl rfl (List.mem_singleton.2 rfl) rfl rfl rfl,
   block_short_circuit_spec.2 wBusCancel wEvent [10] 9 [1] [(10, [wBlocker])] [wBlocker]
      rfl rfl (fun h hm _ _ => rfl)⟩

/-! ## Lemmas about the register fold -/

theorem regFold_lookup_any {h : EventHandler} :
    ∀ (ts : List Int) (tm : TypeMap) (t : Int),
      (t ∈ ts ∨ ∃ b, alookup t tm = some b ∧ b.any (fun h' => h'.id = h.id) = true) →
      ∃ b, alookup t (ts.foldl (regStep h) tm) = some b
        ∧ b.any (fun h' => h'.id = h.id) = true := by
  intro ts
  induction ts with
  | nil =>
    intro tm t hpre
    rcases hpre with hmem | hex
    · simp at hmem
    · exact hex
  | cons t₀ ts' ih =>
    intro tm t hpre
    rw [List.foldl_cons]
    refine ih (regStep h tm t₀) t ?_
    by_cases ht : t = t₀
    · subst ht
      refine Or.inr ⟨bucketAdd ((alookup t tm).getD []) h, ?_, bucketAdd_any_id _ _⟩
      exact alookup_aset_self t _ tm
    · rcases hpre with hmem | hex
      · rcases List.mem_cons.1 hmem with he | hm
        · exact absurd he ht
        · exact Or.inl hm
      · refine Or.inr ?_
        rw [regStep, alookup_aset_ne _ tm (fun he => ht he.symm)]
        exact hex

theorem regFold_stable {h : EventHandler} :
    ∀ (ts : List Int) (tm : TypeMap),
      (∀ t ∈ ts, ∃ b, alookup t tm = some b ∧ b.any (fun h' => h'.id = h.id) = true) →
      ts.foldl (regStep h) tm = tm := by
  intro ts
  induction ts with
  | nil => intro tm _; rfl
  | cons t₀ ts' ih =>
    intro tm hpre
    obtain ⟨b, hlk, hany⟩ := hpre t₀ (List.mem_cons_self _ _)
    have hstep : regStep h tm t₀ = tm := by
      rw [regStep, hlk]
      simp only [Option.getD_some]
      rw [bucketAdd_of_any hany]
      exact aset_of_alookup_eq hlk
    rw [List.foldl_cons, hstep]
    exact ih tm (fun t ht => hpre t (List.mem_cons_of_mem _ ht))

theorem regFold_buckets_singleton {h : EventHandler} :
    ∀ (ts : List Int) (tm : TypeMap),
      (∀ t b, alookup t tm = some b → b = [h]) →
      ∀ t b, alookup t (ts.foldl (regStep h) tm) = some b → b = [h] := by
  intro ts
  induction ts with
  | nil => intro tm hall t b hb; exact hall t b hb
  | cons t₀ ts' ih =>
    intro tm hall
    rw [List.foldl_cons]
    refine ih (regStep h tm t₀) ?_
    intro t b hb
    rw [regStep, alookup_aset] at hb
    by_cases ht : t₀ = t
    · rw [if_pos ht] at hb
      cases hb
      cases hlk : alookup t₀ tm with
      | none => simp [hlk, bucketAdd]
      | some b₀ =>
        have hb₀ : b₀ = [h] := hall t₀ b₀ hlk
        subst hb₀
        simp [hlk, bucketAdd]
    · rw [if_neg ht] at hb
      exact hall t b hb

/-! ## The single-handler bus reached by registering one handler -/

/-- Type map built by registering `h` on an empty priority entry. -/
def tmH (h : EventHandler) : TypeMap := (dedupInts h.targets).foldl (regStep h) []

/-- The bus obtained by registering `h` on the empty bus. -/
def bus1 (h : EventHandler) : BusState :=
  { emptyBus with handlerMap := [(h.priority, tmH h)], priorities := [h.priority] }

theorem register_emptyBus (h : EventHandler) : register emptyBus h = bus1 h := rfl

theorem tmH_lookup_eq_singleton (h : EventHandler) :
    ∀ t b, alookup t (tmH h) = some b → b = [h] :=
  regFold_buckets_singleton (dedupInts h.targets) [] (by intro t b hb; simp [alookup] at hb)

theorem register_bus1 (h : EventHandler) : register (bus1 h) h = bus1 h := by
  have hpre : ∀ t ∈ dedupInts h.targets,
      ∃ b, alookup t (tmH h) = some b ∧ b.any (fun h' => h'.id = h.id) = true :=
    fun t ht => regFold_lookup_any (dedupInts h.targets) [] t (Or.inl ht)
  have hfold : (dedupInts h.targets).foldl (regStep h) (tmH h) = tmH h :=
    regFold_stable (dedupInts h.targets) (tmH h) hpre
  have hlk : alookup h.priority [(h.priority, tmH h)] = some (tmH h) := by
    simp [alookup]
  unfold register
  simp only [bus1, emptyBus]
  rw [chainFold_nil]
  simp only [hlk, hfold]
  simp [hfold]
  exact aset_of_alookup_eq hlk

/-- Registering the same handler instance `n` times, starting from the empty
bus, as done by calling `register` repeatedly. -/
def iterReg (h : EventHandler) : Nat → BusState
  | 0 => emptyBus
  | n + 1 => register (iterReg h n) h

theorem iterReg_eq_bus1 (h : EventHandler) : ∀ n, 1 ≤ n → iterReg h n = bus1 h := by
  intro n
  induction n with
  | zero => intro hn; exact absurd hn (by simp)
  | succ m ih =>
    intro _
    by_cases hm : 1 ≤ m
    · show register (iterReg h m) h = bus1 h
      rw [ih hm]
      exact register_bus1 h
    · have hm0 : m = 0 := by omega
      subst hm0
      exact register_emptyBus h

/-! ## Lemmas about the bag collection on a single-handler type map -/

theorem bagFold_from_singleton {h : EventHandler} {tm : TypeMap}
    (hall : ∀ t b, alookup t tm = some b → b = [h]) :
    ∀ types : List Int, types.foldl (bagStep tm) [h] = [h] := by
  intro types
  induction types with
  | nil => rfl
  | cons t₀ rest ih =>
    rw [List.foldl_cons]
    have hstep : bagStep tm [h] t₀ = [h] := by
      unfold bagStep
      cases hlk : alookup t₀ tm with
      | none => rfl
      | some b =>
        have hb : b = [h] := hall t₀ b hlk
        subst hb
        simp [bucketAdd]
    rw [hstep, ih]

theorem collectBag_singleton {h : EventHandler} {tm : TypeMap}
    (hall : ∀ t b, alookup t tm = some b → b = [h]) :
    ∀ types : List Int, (∃ t ∈ types, (alookup t tm).isSome = true) →
      collectBag tm types = [h] := by
  intro types
  induction types with
  | nil => rintro ⟨t, ht, _⟩; simp at ht
  | cons t₀ rest ih =>
    rintro ⟨t, ht, hs⟩
    show (t₀ :: rest).foldl (bagStep tm) [] = [h]
    rw [List.foldl_cons]
    cases hlk : alookup t₀ tm with
    | some b =>
      have hb : b = [h] := hall t₀ b hlk
      subst hb
      have hstep : bagStep tm [] t₀ = [h] := by simp [bagStep, hlk, bucketAdd]
      rw [hstep]
      exact bagFold_from_singleton hall rest
    | none =>
      have hstep : bagStep tm [] t₀ = [] := by simp [bagStep, hlk]
      rw [hstep]
      rcases List.mem_cons.1 ht with he | hm
      · subst he
        rw [hlk] at hs
        simp at hs
      · exact ih ⟨t, hm, hs⟩

/-! ## Claim theorems: duplicate registration executes once (C1) -/

/-- Count of the invocations of the handler with identity `i` recorded in a
publish trace. -/
def countInv (i : Nat) (trace : List (Int × List (Nat × Bool))) : Nat :=
  (trace.map (fun entry => (entry.2.filter (fun q => q.1 = i)).length)).sum

/-- C1: registering the same handler instance one or more times on a fresh
bus and publishing one event whose type list overlaps the handler's targets
invokes the handler's `handle` exactly once for that publish call. -/
theorem register_dedup_single_execution (h : EventHandler) (n : Nat) (e : UEvent)
    (types : List Int) (hg : e.getType = .ok types)
    (hov : ∃ t ∈ types, t ∈ h.targets) (hn : 1 ≤ n) :
    countInv h.id (publish (iterReg h n) e).trace = 1 := by
  rw [iterReg_eq_bus1 h n hn]
  obtain ⟨t, htypes, htar⟩ := hov
  have hsome : (alookup t (tmH h)).isSome = true := by
    obtain ⟨b, hb, _⟩ := regFold_lookup_any (h := h) (dedupInts h.targets) [] t
      (Or.inl (mem_dedupInts.2 htar))
    rw [show alookup t (tmH h) = some b from hb]
    rfl
  have hbag : collectBag (tmH h) types = [h] :=
    collectBag_singleton (tmH_lookup_eq_singleton h) types ⟨t, htypes, hsome⟩
  have hlk : alookup h.priority (bus1 h).handlerMap = some (tmH h) := by
    simp [bus1, alookup]
  have hth : tierHandlers (bus1 h) h.priority (tmH h) types = some [h] := by
    simp [tierHandlers, bus1, emptyBus, hbag, chainFold_nil]
  have htr : (publish (bus1 h) e).trace
      = (publishLoop (bus1 h) e types [h.priority]).trace := by
    simp [publish, bus1, emptyBus, chainFold_nil, hg]
  rw [htr, publishLoop_cons_run [] hlk hth]
  by_cases hsc : (blockScan (bus1 h).beforeBlockCheckMWs
      ([h].map (fun h => (h, runHandler h e)))).2 = true
  · rw [if_pos hsc]
    simp [countInv]
  · rw [if_neg hsc, publishLoop_nil]
    simp [countInv]

/-- Witness for C1: a handler with two targets registered twice; a publish
of an event carrying both its types runs it exactly once. -/
theorem register_dedup_single_execution_witness :
    ((⟨0, .ok [10, 20]⟩ : UEvent).getType = .ok [10, 20]
      ∧ (∃ t ∈ [(10 : Int), 20], t ∈ [(10 : Int), 20]) ∧ 1 ≤ 2)
    ∧ countInv 5 (publish
        (iterReg ⟨5, [10, 20], 3, false, 0, fun _ => ⟨0, .ok true⟩⟩ 2)
        ⟨0, .ok [10, 20]⟩).trace = 1 :=
  ⟨⟨rfl, ⟨10, by decide, by decide⟩, by decide⟩,
   register_dedup_single_execution ⟨5, [10, 20], 3, false, 0, fun _ => ⟨0, .ok true⟩⟩
     2 ⟨0, .ok [10, 20]⟩ [10, 20] rfl ⟨10, by decide, by decide⟩ (by decide)⟩

/-! ## Shape lemmas for register and unregister -/

theorem register_cancelled {bus : BusState} {h : EventHandler}
    (hc : (chainFold bus.beforeRegisterMWs h).2 = true) : register bus h = bus := by
  simp [register, hc]

theorem register_run_existing {bus : BusState} {h current : EventHandler} {tm : TypeMap}
    (hcf : chainFold bus.beforeRegisterMWs h = (current, false))
    (hlk : alookup current.priority bus.handlerMap = some tm) :
    register bus h = { bus with handlerMap := (aset current.priority
      ((dedupInts current.targets).foldl (regStep h) tm) bus.handlerMap) } := by
  simp [register, hcf, hlk]

theorem register_run_new {bus : BusState} {h current : EventHandler}
    (hcf : chainFold bus.beforeRegisterMWs h = (current, false))
    (hlk : alookup current.priority bus.handlerMap = none) :
    register bus h = { bus with
      handlerMap := (aset current.priority
        ((dedupInts current.targets).foldl (regStep h) []) bus.handlerMap)
      priorities := sortDesc (bus.priorities ++ [current.priority]) } := by
  simp [register, hcf, hlk]

theorem unregister_cancelled {bus : BusState} {h : EventHandler}
    (hc : (chainFold bus.beforeUnregisterMWs h).2 = true) : unregister bus h = bus := by
  simp [unregister, hc]

theorem unregister_absent {bus : BusState} {h current : EventHandler}
    (hcf : chainFold bus.beforeUnregisterMWs h = (current, false))
    (hlk : alookup current.priority bus.handlerMap = none) :
    unregister bus h = bus := by
  simp [unregister, hcf, hlk]

theorem unregister_run_empty {bus : BusState} {h current : EventHandler} {tm : TypeMap}
    (hcf : chainFold bus.beforeUnregisterMWs h = (current, false))
    (hlk : alookup current.priority bus.handlerMap = some tm)
    (he : ((dedupInts current.targets).foldl (unregStep h) tm).isEmpty = true) :
    unregister bus h = { bus with
      handlerMap := adel current.priority bus.handlerMap
      priorities := bus.priorities.filter (fun q => q ≠ current.priority) } := by
  simp [unregister, hcf, hlk, he]

theorem unregister_run_nonempty {bus : BusState} {h current : EventHandler} {tm : TypeMap}
    (hcf : chainFold bus.beforeUnregisterMWs h = (current, false))
    (hlk : alookup current.priority bus.handlerMap = some tm)
    (he : ((dedupInts current.targets).foldl (unregStep h) tm).isEmpty = false) :
    unregister bus h = { bus with handlerMap := (aset current.priority
      ((dedupInts current.targets).foldl (unregStep h) tm) bus.handlerMap) } := by
  simp [unregister, hcf, hlk, he]

/-! ## Claim theorems: middleware-substituted registration (C6) -/

/-- True when the index of `bus` holds, at priority `p` and event type `t`, a
handler whose identity is `i`. -/
def registeredAt (bus : BusState) (p t : Int) (i : Nat) : Bool :=
  match alookup p bus.handlerMap with
  | none => false
  | some tm =>
      match alookup t tm with
      | none => false
      | some b => b.any (fun h' => h'.id = i)

/-- Original and substituted handlers and the substituting bus for the C6
counterexample: the beforeRegister middleware replaces `subH1` (identity 1,
targets `[10]`, priority 0, handle resolves `false`) with `subH2`
(identity 2, targets `[20]`, priority 7, handle resolves `true`). -/
def subH1 : EventHandler := ⟨1, [10], 0, false, 0, fun _ => ⟨0, .ok false⟩⟩

def subH2 : EventHandler := ⟨2, [20], 7, false, 0, fun _ => ⟨0, .ok true⟩⟩

def subBus : BusState :=
  { emptyBus with beforeRegisterMWs := [fun _ => some (subH2, false)] }

def subEvent : UEvent := ⟨0, .ok [20]⟩

/-- Counterexample to C6: registering `subH1` under the substituting
middleware indexes the *original* handler (identity 1) under the substituted
handler's priority 7 and target 20, and a publish of a matching event
executes the original handler (result `false`), not the substituted one
(which would have identity 2 and result `true`). -/
theorem register_substitution_cex :
    (register subBus subH1).handlerMap = [(7, [(20, [subH1])])]
    ∧ (register subBus subH1).priorities = [7]
    ∧ subH1.id ≠ subH2.id
    ∧ (publish (register subBus subH1) subEvent).trace = [(7, [(1, false)])]
    ∧ runHandler subH2 subEvent = true :=
  ⟨rfl, rfl, by decide, rfl, rfl⟩

/-- C6 amended: the substituted handler's `priority` and `targets` decide
where the registration is indexed, but the handler added to those buckets is
the *original* one passed to `register`, so a subsequent matching publish
executes the original handler. -/
theorem register_adds_original_handler (bus : BusState) (h current : EventHandler)
    (hcf : chainFold bus.beforeRegisterMWs h = (current, false)) :
    ∀ t ∈ dedupInts current.targets,
      registeredAt (register bus h) current.priority t h.id = true := by
  intro t ht
  cases hlk : alookup current.priority bus.handlerMap with
  | some typeMap =>
    obtain ⟨b, hb, hany⟩ :=
      regFold_lookup_any (h := h) (dedupInts current.targets) typeMap t (Or.inl ht)
    rw [register_run_existing hcf hlk]
    simp [registeredAt, alookup_aset_self, hb, hany]
  | none =>
    obtain ⟨b, hb, hany⟩ :=
      regFold_lookup_any (h := h) (dedupInts current.targets) [] t (Or.inl ht)
    rw [register_run_new hcf hlk]
    simp [registeredAt, alookup_aset_self, hb, hany]

/-- Witness for the amended C6 on the concrete substituting bus. -/
theorem register_adds_original_handler_witness :
    chainFold subBus.beforeRegisterMWs subH1 = (subH2, false)
    ∧ registeredAt (register subBus subH1) subH2.priority 20 subH1.id = true :=
  ⟨rfl, register_adds_original_handler subBus subH1 subH2 rfl 20 (by decide)⟩

/-! ## Claim theorems: executed-handler recording (C7) -/

/-- Handlers and bus for the C7 counterexample: two handlers in one tier,
the first blocking. -/
def c7Blocker : EventHandler := ⟨1, [10], 5, true, 0, fun _ => ⟨0, .ok true⟩⟩

def c7After : EventHandler := ⟨2, [10], 5, false, 0, fun _ => ⟨0, .ok true⟩⟩

def c7Bus : BusState :=
  { emptyBus with
      handlerMap := [(5, [(10, [c7Blocker, c7After])])]
      priorities := [5] }

def c7Event : UEvent := ⟨0, .ok [10]⟩

/-- Counterexample to C7: in the executed tier both handlers return `true`
(the trace records identities 1 and 2 with result `true`), but the executed
list passed to afterPublish contains only the blocking handler (identity 1):
the `true` result of handler 2, scanned after the uncancelled block, is not
recorded. -/
theorem executed_record_cex :
    (publish c7Bus c7Event).trace = [(5, [(1, true), (2, true)])]
    ∧ ((publish c7Bus c7Event).afterArgs.map (fun a => a.2.map EventHandler.id))
        = some [1] :=
  ⟨rfl, rfl⟩

/-- C7 amended: the executed list passed to afterPublish is the loop's
record; within a tier, when no uncancelled block occurs every handler whose
result was `true` is recorded, in scan order; and a `true` handler is always
recorded when no handler strictly before it in scan order blocks with an
uncancelled block-check — in particular the blocking handler itself is
recorded; `true` handlers scanned after the block are dropped. -/
theorem executed_record_spec :
    (∀ (bus : BusState) (e e' : UEvent) (types : List Int),
      chainFold bus.beforePublishMWs e = (e', false) →
      e'.getType = .ok types →
      (publish bus e).afterArgs
        = some (e', (publishLoop bus e' types bus.priorities).executed))
    ∧ (∀ (mws : List (EventHandler → Option (EventHandler × Bool)))
        (pairs : List (EventHandler × Bool)),
      (blockScan mws pairs).2 = false →
      (blockScan mws pairs).1 = (pairs.filter (fun q => q.2)).map Prod.fst)
    ∧ (∀ (mws : List (EventHandler → Option (EventHandler × Bool)))
        (l₁ : List (EventHandler × Bool)) (h : EventHandler)
        (l₂ : List (EventHandler × Bool)),
      (∀ q ∈ l₁, q.2 = true → q.1.block = true → (chainFold mws q.1).2 = true) →
      h ∈ (blockScan mws (l₁ ++ (h, true) :: l₂)).1) := by
  refine ⟨?_, ?_, ?_⟩
  · intro bus e e' types hcf hgt
    simp [publish, hcf, hgt]
  · intro mws pairs
    induction pairs with
    | nil => intro _; simp [blockScan]
    | cons q rest ih =>
      intro hsc
      obtain ⟨h₀, r₀⟩ := q
      rw [blockScan_cons] at hsc ⊢
      by_cases hr : r₀ = true
      · rw [if_pos hr] at hsc ⊢
        by_cases hbl : h₀.block = true
        · rw [if_pos hbl] at hsc ⊢
          by_cases hcc : (chainFold mws h₀).2 = true
          · rw [if_pos hcc] at hsc ⊢
            have hsc' : (blockScan mws rest).2 = false := hsc
            show h₀ :: (blockScan mws rest).1 = _
            rw [ih hsc']
            simp [List.filter_cons, hr]
          · rw [if_neg hcc] at hsc
            simp at hsc
        · rw [if_neg hbl] at hsc ⊢
          have hsc' : (blockScan mws rest).2 = false := hsc
          show h₀ :: (blockScan mws rest).1 = _
          rw [ih hsc']
          simp [List.filter_cons, hr]
      · rw [if_neg hr] at hsc ⊢
        have hr0 : r₀ = false := Bool.eq_false_iff.mpr hr
        rw [ih hsc]
        simp [List.filter_cons, hr0]
  · intro mws l₁ h l₂ hall
    induction l₁ with
    | nil =>
      simp only [List.nil_append]
      rw [blockScan]
      by_cases hbl : h.block = true
      · by_cases hcc : (chainFold mws h).2 = true
        · simp [hbl, hcc]
        · simp [hbl, hcc]
      · simp [hbl]
    | cons q rest ih =>
      obtain ⟨h₀, r₀⟩ := q
      have hall' : ∀ q ∈ rest, q.2 = true → q.1.block = true →
          (chainFold mws q.1).2 = true :=
        fun q hq => hall q (List.mem_cons_of_mem _ hq)
      have hrec := ih hall'
      rw [List.cons_append, blockScan]
      by_cases hr : r₀ = true
      · by_cases hbl : h₀.block = true
        · have hcc := hall (h₀, r₀) (List.mem_cons_self _ _) hr hbl
          simp [hr, hbl, hcc, hrec]
        · simp [hr, hbl, hrec]
      · simp [hr, hrec]

/-- Witness for the amended C7: the glue on the concrete C7 bus, a scan with
no block recording both true handlers, and a true handler recorded behind a
failed one. -/
theorem executed_record_spec_witness :
    ((publish c7Bus c7Event).afterArgs
      = some (c7Event, (publishLoop c7Bus c7Event [10] c7Bus.priorities).executed))
    ∧ (blockScan [] [(c7After, true), (c7Blocker, false)]).1
        = ([(c7After, true), (c7Blocker, false)].filter (fun q => q.2)).map Prod.fst
    ∧ c7After ∈ (blockScan [] ([(c7Blocker, false)] ++ (c7After, true) :: [])).1 :=
  ⟨executed_record_spec.1 c7Bus c7Event c7Event [10] rfl rfl,
   executed_record_spec.2.1 [] [(c7After, true), (c7Blocker, false)] rfl,
   executed_record_spec.2.2 [] [(c7Blocker, false)] c7After []
     (fun q hq h2 _ => by
       rcases List.mem_singleton.1 hq with rfl
       simp at h2)⟩

/-! ## The registration-index invariant (C3) -/

/-- Well-formedness of one priority's type map: no duplicate type keys and
no stored empty bucket. -/
def TmOk (tm : TypeMap) : Prop := (keys tm).Nodup ∧ ∀ q ∈ tm, q.2 ≠ []

/-- The registration-index invariant: the priority list is strictly
descending (so each priority appears exactly once), it contains exactly the
keys of the handler map, the map's keys are unique, and every priority key
maps to a non-empty type map all of whose buckets are non-empty (hence has
at least one non-empty event-type bucket). -/
structure Inv (bus : BusState) : Prop where
  sorted : List.Pairwise (· > ·) bus.priorities
  keysIff : ∀ p : Int, p ∈ bus.priorities ↔ p ∈ keys bus.handlerMap
  keysNodup : (keys bus.handlerMap).Nodup
  tmOk : ∀ p tm, alookup p bus.handlerMap = some tm → tm ≠ [] ∧ TmOk tm

theorem Inv_emptyBus : Inv emptyBus := by
  refine ⟨?_, ?_, ?_, ?_⟩
  · simp [emptyBus]
  · intro p
    simp [emptyBus, keys_nil]
  · simp [emptyBus, keys_nil]
  · intro p tm hl
    simp [emptyBus, alookup] at hl

theorem regStep_TmOk {h : EventHandler} {tm : TypeMap} (ht : TmOk tm) (t : Int) :
    TmOk (regStep h tm t) := by
  refine ⟨keys_aset_nodup _ ht.1, ?_⟩
  intro q hq
  rcases mem_aset hq with rfl | hm
  · exact bucketAdd_ne_nil _ _
  · exact ht.2 q hm

theorem regFold_TmOk {h : EventHandler} :
    ∀ (ts : List Int) {tm : TypeMap}, TmOk tm → TmOk (ts.foldl (regStep h) tm) := by
  intro ts
  induction ts with
  | nil => intro tm ht; exact ht
  | cons t₀ ts' ih =>
    intro tm ht
    rw [List.foldl_cons]
    exact ih (regStep_TmOk ht t₀)

theorem regFold_ne_nil {h : EventHandler} :
    ∀ (ts : List Int) (tm : TypeMap), tm ≠ [] → ts.foldl (regStep h) tm ≠ [] := by
  intro ts
  induction ts with
  | nil => intro tm h0; exact h0
  | cons t₀ ts' ih =>
    intro tm _
    rw [List.foldl_cons]
    exact ih _ (aset_ne_nil _ _ _)

theorem regFold_ne_nil_of_ts {h : EventHandler} {ts : List Int} (hts : ts ≠ [])
    (tm : TypeMap) : ts.foldl (regStep h) tm ≠ [] := by
  cases ts with
  | nil => exact absurd rfl hts
  | cons t₀ ts' =>
    rw [List.foldl_cons]
    exact regFold_ne_nil ts' _ (aset_ne_nil _ _ _)

theorem unregStep_TmOk {h : EventHandler} {tm : TypeMap} (ht : TmOk tm) (t : Int) :
    TmOk (unregStep h tm t) := by
  show TmOk (match alookup t tm with
    | none => tm
    | some bucket =>
        let bucket' := bucket.filter (fun h' => h'.id ≠ h.id)
        if bucket'.isEmpty then adel t tm else aset t bucket' tm)
  cases hlk : alookup t tm with
  | none => exact ht
  | some bucket =>
    show TmOk (if (bucket.filter (fun h' => h'.id ≠ h.id)).isEmpty then adel t tm
      else aset t (bucket.filter (fun h' => h'.id ≠ h.id)) tm)
    by_cases he : (bucket.filter (fun h' => h'.id ≠ h.id)).isEmpty = true
    · rw [if_pos he]
      exact ⟨keys_adel_nodup ht.1, fun q hq => ht.2 q (mem_adel hq)⟩
    · rw [if_neg he]
      refine ⟨keys_aset_nodup _ ht.1, ?_⟩
      intro q hq
      rcases mem_aset hq with rfl | hm
      · intro h0
        have h0' : bucket.filter (fun h' => h'.id ≠ h.id) = [] := h0
        rw [h0'] at he
        exact he rfl
      · exact ht.2 q hm

theorem unregFold_TmOk {h : EventHandler} :
    ∀ (ts : List Int) {tm : TypeMap}, TmOk tm → TmOk (ts.foldl (unregStep h) tm) := by
  intro ts
  induction ts with
  | nil => intro tm ht; exact ht
  | cons t₀ ts' ih =>
    intro tm ht
    rw [List.foldl_cons]
    exact ih (unregStep_TmOk ht t₀)

theorem Inv_register {bus : BusState} {h : EventHandler} (hinv : Inv bus)
    (hne : (chainFold bus.beforeRegisterMWs h).1.targets ≠ []) :
    Inv (register bus h) := by
  by_cases hc : (chainFold bus.beforeRegisterMWs h).2 = true
  · rw [register_cancelled hc]
    exact hinv
  · have hcf : chainFold bus.beforeRegisterMWs h
        = ((chainFold bus.beforeRegisterMWs h).1, false) := by
      rw [Prod.ext_iff]
      exact ⟨rfl, Bool.eq_false_iff.mpr hc⟩
    have hts : dedupInts (chainFold bus.beforeRegisterMWs h).1.targets ≠ [] :=
      dedupInts_ne_nil hne
    cases hlk : alookup (chainFold bus.beforeRegisterMWs h).1.priority bus.handlerMap with
    | some tm =>
      rw [register_run_existing hcf hlk]
      obtain ⟨htm_ne, htm_ok⟩ :=
        hinv.tmOk (chainFold bus.beforeRegisterMWs h).1.priority tm hlk
      have hmem : (chainFold bus.beforeRegisterMWs h).1.priority ∈ keys bus.handlerMap :=
        (alookup_isSome_iff_mem_keys _ _).1 (by rw [hlk]; rfl)
      refine ⟨hinv.sorted, ?_, ?_, ?_⟩
      · intro p
        dsimp only
        rw [keys_aset_mem _ hmem]
        exact hinv.keysIff p
      · dsimp only
        rw [keys_aset_mem _ hmem]
        exact hinv.keysNodup
      · intro p tm₀ hl'
        dsimp only at hl'
        by_cases hp : (chainFold bus.beforeRegisterMWs h).1.priority = p
        · subst hp
          rw [alookup_aset_self] at hl'
          injection hl' with he
          subst he
          exact ⟨regFold_ne_nil _ _ htm_ne, regFold_TmOk _ htm_ok⟩
        · rw [alookup_aset_ne _ _ hp] at hl'
          exact hinv.tmOk p tm₀ hl'
    | none =>
      rw [register_run_new hcf hlk]
      have hnotmem : (chainFold bus.beforeRegisterMWs h).1.priority ∉ keys bus.handlerMap := by
        intro hm
        obtain ⟨v, hv⟩ := alookup_of_mem_keys hm
        rw [hv] at hlk
        cases hlk
      have hnp : (chainFold bus.beforeRegisterMWs h).1.priority ∉ bus.priorities :=
        fun hm => hnotmem ((hinv.keysIff _).1 hm)
      have hnodup_pr : bus.priorities.Nodup := hinv.sorted.imp (fun hab => ne_of_gt hab)
      have hnodup_app : (bus.priorities
          ++ [(chainFold bus.beforeRegisterMWs h).1.priority]).Nodup := by
        simp [List.nodup_append, hnodup_pr, hnp]
      refine ⟨sortDesc_pairwise_gt hnodup_app, ?_, ?_, ?_⟩
      · intro p
        dsimp only
        rw [(sortDesc_perm _).mem_iff, keys_aset_not_mem _ hnotmem,
          List.mem_append, List.mem_append, hinv.keysIff p]
      · dsimp only
        rw [keys_aset_not_mem _ hnotmem]
        simp [List.nodup_append, hinv.keysNodup, hnotmem]
      · intro p tm₀ hl'
        dsimp only at hl'
        by_cases hp : (chainFold bus.beforeRegisterMWs h).1.priority = p
        · subst hp
          rw [alookup_aset_self] at hl'
          injection hl' with he
          subst he
          refine ⟨regFold_ne_nil_of_ts hts _, regFold_TmOk _ ?_⟩
          exact ⟨by simp [keys_nil], by simp⟩
        · rw [alookup_aset_ne _ _ hp] at hl'
          exact hinv.tmOk p tm₀ hl'

theorem Inv_unregister {bus : BusState} {h : EventHandler} (hinv : Inv bus) :
    Inv (unregister bus h) := by
  by_cases hc : (chainFold bus.beforeUnregisterMWs h).2 = true
  · rw [unregister_cancelled hc]
    exact hinv
  · have hcf : chainFold bus.beforeUnregisterMWs h
        = ((chainFold bus.beforeUnregisterMWs h).1, false) := by
      rw [Prod.ext_iff]
      exact ⟨rfl, Bool.eq_false_iff.mpr hc⟩
    cases hlk : alookup (chainFold bus.beforeUnregisterMWs h).1.priority bus.handlerMap with
    | none =>
      rw [unregister_absent hcf hlk]
      exact hinv
    | some tm =>
      obtain ⟨htm_ne, htm_ok⟩ :=
        hinv.tmOk (chainFold bus.beforeUnregisterMWs h).1.priority tm hlk
      have hfold_ok : TmOk ((dedupInts (chainFold bus.beforeUnregisterMWs h).1.targets).foldl
          (unregStep h) tm) := unregFold_TmOk _ htm_ok
      by_cases he : ((dedupInts (chainFold bus.beforeUnregisterMWs h).1.targets).foldl
          (unregStep h) tm).isEmpty = true
      · rw [unregister_run_empty hcf hlk he]
        refine ⟨?_, ?_, ?_, ?_⟩
        · exact hinv.sorted.sublist (List.filter_sublist _)
        · intro p
          dsimp only
          rw [List.mem_filter, mem_keys_adel hinv.keysNodup, hinv.keysIff p]
          simp
        · exact keys_adel_nodup hinv.keysNodup
        · intro p tm₀ hl'
          dsimp only at hl'
          by_cases hp : p = (chainFold bus.beforeUnregisterMWs h).1.priority
          · subst hp
            rw [alookup_adel_self hinv.keysNodup] at hl'
            cases hl'
          · rw [alookup_adel_ne _ (fun hh => hp hh.symm)] at hl'
            exact hinv.tmOk p tm₀ hl'
      · rw [unregister_run_nonempty hcf hlk (Bool.eq_false_iff.mpr he)]
        have hmem : (chainFold bus.beforeUnregisterMWs h).1.priority ∈ keys bus.handlerMap :=
          (alookup_isSome_iff_mem_keys _ _).1 (by rw [hlk]; rfl)
        refine ⟨hinv.sorted, ?_, ?_, ?_⟩
        · intro p
          dsimp only
          rw [keys_aset_mem _ hmem]
          exact hinv.keysIff p
        · dsimp only
          rw [keys_aset_mem _ hmem]
          exact hinv.keysNodup
        · intro p tm₀ hl'
          dsimp only at hl'
          by_cases hp : (chainFold bus.beforeUnregisterMWs h).1.priority = p
          · subst hp
            rw [alookup_aset_self] at hl'
            injection hl' with h₂
            subst h₂
            refine ⟨?_, hfold_ok⟩
            intro h0
            rw [h0] at he
            exact he rfl
          · rw [alookup_aset_ne _ _ hp] at hl'
            exact hinv.tmOk p tm₀ hl'

theorem publishLoop_stale_nil {bus : BusState} {e : UEvent} {types : List Int} :
    ∀ l : List Int, (∀ p ∈ l, (alookup p bus.handlerMap).isSome = true) →
      (publishLoop bus e types l).stale = [] := by
  intro l
  induction l with
  | nil => intro _; rfl
  | cons a rest ih =>
    intro hall
    have ha := hall a (List.mem_cons_self _ _)
    have hrest := fun p hp => hall p (List.mem_cons_of_mem a hp)
    cases hlk : alookup a bus.handlerMap with
    | none =>
      rw [hlk] at ha
      simp at ha
    | some tm =>
      cases hth : tierHandlers bus a tm types with
      | none =>
        rw [publishLoop_cons_skip rest hlk hth]
        exact ih hrest
      | some vh =>
        rw [publishLoop_cons_run rest hlk hth]
        by_cases hsc : (blockScan bus.beforeBlockCheckMWs
            (vh.map (fun h => (h, runHandler h e)))).2 = true
        · rw [if_pos hsc]
        · rw [if_neg hsc]
          exact ih hrest

theorem Inv_publish {bus : BusState} (e : UEvent) (hinv : Inv bus) :
    Inv ((publish bus e).state) := by
  by_cases hc : (chainFold bus.beforePublishMWs e).2 = true
  · rw [publish_cancelled bus e hc]
    exact hinv
  · cases hg : (chainFold bus.beforePublishMWs e).1.getType with
    | error u =>
      cases u
      rw [publish_getType_raises bus e (Bool.eq_false_iff.mpr hc) hg]
      exact hinv
    | ok types =>
      have hstale : (publishLoop bus (chainFold bus.beforePublishMWs e).1 types
          bus.priorities).stale = [] :=
        publishLoop_stale_nil bus.priorities
          (fun p hp => (alookup_isSome_iff_mem_keys p _).2 ((hinv.keysIff p).1 hp))
      have hstate : (publish bus e).state = bus := by
        simp [publish, Bool.eq_false_iff.mpr hc, hg, hstale]
      rw [hstate]
      exact hinv

/-! ## Claim theorems: the invariant claim (C3, corrected) -/

/-- A handler with an empty target list, used to refute the claim as
stated. -/
def emptyTargetsHandler : EventHandler := ⟨0, [], 0, false, 0, fun _ => ⟨0, .ok true⟩⟩

/-- Counterexample to C3 as stated: on the empty bus (which satisfies the
invariant) registering a handler whose target list is empty creates the
priority key 0 with an empty type map — no non-empty bucket exists under
it, so `register` does not preserve the invariant. -/
theorem index_invariant_cex :
    Inv emptyBus ∧ ¬ Inv (register emptyBus emptyTargetsHandler) := by
  refine ⟨Inv_emptyBus, ?_⟩
  intro hinv
  have h0 : alookup 0 (register emptyBus emptyTargetsHandler).handlerMap = some [] := rfl
  exact (hinv.tmOk 0 [] h0).1 rfl

/-- C3 amended: `register` preserves the registration-index invariant
provided the effective (possibly middleware-substituted) handler's target
list is non-empty; `unregister` and `publish` preserve it unconditionally. -/
theorem index_invariant_preserved :
    (∀ (bus : BusState) (h : EventHandler), Inv bus →
      (chainFold bus.beforeRegisterMWs h).1.targets ≠ [] → Inv (register bus h))
    ∧ (∀ (bus : BusState) (h : EventHandler), Inv bus → Inv (unregister bus h))
    ∧ (∀ (bus : BusState) (e : UEvent), Inv bus → Inv ((publish bus e).state)) :=
  ⟨fun _ _ hinv hne => Inv_register hinv hne,
   fun _ _ hinv => Inv_unregister hinv,
   fun _ e hinv => Inv_publish e hinv⟩

/-- Handler for the C3 witness. -/
def invWitHandler : EventHandler := ⟨3, [10], 2, false, 0, fun _ => ⟨0, .ok true⟩⟩

/-- Witness for the amended C3 at concrete operations on the empty bus. -/
theorem index_invariant_preserved_witness :
    ((chainFold emptyBus.beforeRegisterMWs invWitHandler).1.targets ≠ []
      ∧ Inv (register emptyBus invWitHandler))
    ∧ Inv (unregister emptyBus invWitHandler)
    ∧ Inv ((publish emptyBus ⟨0, .ok [10]⟩).state) :=
  ⟨⟨by decide,
    index_invariant_preserved.1 emptyBus invWitHandler Inv_emptyBus (by decide)⟩,
   index_invariant_preserved.2.1 emptyBus invWitHandler Inv_emptyBus,
   index_invariant_preserved.2.2 emptyBus ⟨0, .ok [10]⟩ Inv_emptyBus⟩

end Umiri
